import Mathlib

/-!
Verification of the `dicomtonifti` conversion orchestrator
(`Programs/dicomtonifti.cxx` of the vtk-dicom repository).

The development shallowly embeds the program's core routines:

* `dicomtonifti_safe_string`  — metadata sanitization (lines 421-449);
* `dicomtonifti_make_filename` — output path synthesis (lines 452-482);
* `dicomtonifti_convert_one`  — per-series conversion decisions, in
  particular the two-stage slice-reorder detection (lines 485-549);
* `dicomtonifti_check_error`  — the collaborator error dispatch
  (lines 142-206);
* the single-mode / batch-mode output naming of
  `dicomtonifti_convert_files` (lines 552-636);
* `dicomtonifti_files_and_dirs` — the recursive directory walk with the
  visited-set cycle guard (lines 639-710).

Strings are modelled as `List Char` where character-level reasoning is
needed, and as `String` for opaque path values.  Machine doubles of the
matrix arithmetic are idealized as exact rationals.
-/

namespace DicomToNifti

/-- ASCII `isalnum` as used by the program (C locale). -/
def isAlnumA (c : Char) : Bool :=
  ('A' ≤ c && c ≤ 'Z') || ('a' ≤ c && c ≤ 'z') || ('0' ≤ c && c ≤ '9')

/-- ASCII `tolower` as used by the program (C locale). -/
def toLowerA (c : Char) : Char :=
  if 'A' ≤ c && c ≤ 'Z' then Char.ofNat (c.toNat + 32) else c

/-- The literal fallback token `UNKNOWN`. -/
def unknownToken : List Char := ['U', 'N', 'K', 'N', 'O', 'W', 'N']

/-- The loop of `dicomtonifti_safe_string` (lines 427-439): walk the input,
substituting `_` for non-alphanumeric characters while recording in `m` the
index one past the last alphanumeric character seen. -/
def safeLoop : List Char → Nat → List Char → Nat → List Char × Nat
  | [], _, out, m => (out, m)
  | c :: rest, i, out, m =>
    if isAlnumA c then safeLoop rest (i + 1) (out ++ [c]) (i + 1)
    else safeLoop rest (i + 1) (out ++ ['_']) m

/-- Embedding of `dicomtonifti_safe_string` (lines 421-449): substitute,
truncate to `m` (`out.resize(m)`), and fall back to `UNKNOWN` when empty. -/
def dicomtonifti_safe_string (s : List Char) : List Char :=
  let r := safeLoop s 0 [] 0
  let out := r.1.take r.2
  if out.length = 0 then unknownToken else out

/-- Spec-side: replace every non-alphanumeric character by an underscore. -/
def substUnderscore (s : List Char) : List Char :=
  s.map (fun c => if isAlnumA c then c else '_')

/-- Spec-side: truncate a string right after its last alphanumeric
character (drop the trailing run of non-alphanumeric characters). -/
def truncAfterLastAlnum (s : List Char) : List Char :=
  (s.reverse.dropWhile (fun c => !isAlnumA c)).reverse

/-- Spec-side sanitizer, following the specification's words. -/
def specSanitize (s : List Char) : List Char :=
  if truncAfterLastAlnum (substUnderscore s) = [] then unknownToken
  else truncAfterLastAlnum (substUnderscore s)

/-- The accumulated output of `safeLoop` is the underscore-substituted
input appended to the initial accumulator. -/
theorem safeLoop_fst (s : List Char) :
    ∀ (i : Nat) (out : List Char) (m : Nat),
      (safeLoop s i out m).1 = out ++ substUnderscore s := by
  induction s with
  | nil => intro i out m; simp [safeLoop, substUnderscore]
  | cons c rest ih =>
    intro i out m
    by_cases h : isAlnumA c
    · simp [safeLoop, h, ih, substUnderscore]
    · simp [safeLoop, h, ih, substUnderscore]

/-- The `m` computed by `safeLoop`, as a standalone recursion. -/
def lastEnd : List Char → Nat → Nat → Nat
  | [], _, m => m
  | c :: rest, i, m =>
    if isAlnumA c then lastEnd rest (i + 1) (i + 1) else lastEnd rest (i + 1) m

theorem safeLoop_snd (s : List Char) :
    ∀ (i : Nat) (out : List Char) (m : Nat),
      (safeLoop s i out m).2 = lastEnd s i m := by
  induction s with
  | nil => intro i out m; simp [safeLoop, lastEnd]
  | cons c rest ih =>
    intro i out m
    by_cases h : isAlnumA c
    · simp [safeLoop, lastEnd, h, ih]
    · simp [safeLoop, lastEnd, h, ih]

theorem lastEnd_append (a b : List Char) :
    ∀ (i m : Nat), lastEnd (a ++ b) i m = lastEnd b (i + a.length) (lastEnd a i m) := by
  induction a with
  | nil => intro i m; simp [lastEnd]
  | cons c rest ih =>
    intro i m
    have harith : i + 1 + rest.length = i + (rest.length + 1) := by omega
    by_cases h : isAlnumA c
    · simp only [List.cons_append, lastEnd, h, if_true, List.length_cons,
        List.append_eq]
      rw [ih, harith]
    · simp only [List.cons_append, lastEnd, h, Bool.false_eq_true, if_false,
        List.length_cons, List.append_eq]
      rw [ih, harith]

theorem lastEnd_le (s : List Char) :
    ∀ (i m : Nat), m ≤ i → lastEnd s i m ≤ i + s.length := by
  induction s with
  | nil => intro i m h; simpa [lastEnd] using Nat.le_of_lt_succ (Nat.lt_succ_of_le h)
  | cons c rest ih =>
    intro i m h
    by_cases hc : isAlnumA c
    · simp only [lastEnd, hc, if_true, List.length_cons]
      have := ih (i + 1) (i + 1) le_rfl
      omega
    · simp only [lastEnd, hc, Bool.false_eq_true, if_false, List.length_cons]
      have := ih (i + 1) m (le_trans h (Nat.le_succ i))
      omega

/-- Substitution does not change which positions hold alphanumeric
characters. -/
theorem lastEnd_substUnderscore (s : List Char) :
    ∀ (i m : Nat), lastEnd (substUnderscore s) i m = lastEnd s i m := by
  induction s with
  | nil => intro i m; simp [substUnderscore]
  | cons c rest ih =>
    intro i m
    by_cases h : isAlnumA c
    · simp only [substUnderscore, List.map_cons, h, if_true, lastEnd]
      simpa [substUnderscore] using ih (i + 1) (i + 1)
    · have h2 : isAlnumA '_' = false := by decide
      simp only [substUnderscore, List.map_cons, h, Bool.false_eq_true, if_false,
        lastEnd, h2]
      simpa [substUnderscore] using ih (i + 1) m

/-- Taking `lastEnd` characters is exactly truncation after the last
alphanumeric character. -/
theorem take_lastEnd (t : List Char) :
    t.take (lastEnd t 0 0) = truncAfterLastAlnum t := by
  induction t using List.reverseRecOn with
  | nil => simp [lastEnd, truncAfterLastAlnum]
  | append_singleton t₀ c ih =>
    rw [lastEnd_append]
    by_cases h : isAlnumA c
    · simp only [lastEnd, h, if_true, truncAfterLastAlnum, List.reverse_append,
        List.reverse_singleton, List.singleton_append, List.dropWhile_cons, h,
        Bool.not_true, Bool.false_eq_true, if_false]
      rw [List.take_of_length_le (by simp)]
      simp
    · simp only [lastEnd, h, Bool.false_eq_true, if_false, truncAfterLastAlnum,
        List.reverse_append, List.reverse_singleton, List.singleton_append,
        List.dropWhile_cons, h, Bool.not_false, if_true]
      rw [List.take_append_of_le_length
        (by simpa using lastEnd_le t₀ 0 0 (Nat.le_refl 0))]
      exact ih

/-- The embedded sanitizer refines the specification's sanitizer. -/
theorem dicomtonifti_safe_string_eq (s : List Char) :
    dicomtonifti_safe_string s = specSanitize s := by
  have h1 : (safeLoop s 0 [] 0).1 = substUnderscore s := by
    simpa using safeLoop_fst s 0 [] 0
  have h2 : (safeLoop s 0 [] 0).2 = lastEnd s 0 0 := safeLoop_snd s 0 [] 0
  have h3 : (substUnderscore s).take (lastEnd s 0 0) =
      truncAfterLastAlnum (substUnderscore s) := by
    rw [← lastEnd_substUnderscore s 0 0]
    exact take_lastEnd (substUnderscore s)
  by_cases he : truncAfterLastAlnum (substUnderscore s) = []
  · simp [dicomtonifti_safe_string, specSanitize, h1, h2, h3, he]
  · simp [dicomtonifti_safe_string, specSanitize, h1, h2, h3, he,
      List.length_eq_zero]

theorem unknownToken_alnum : ∀ c ∈ unknownToken, isAlnumA c = true := by decide

/-- The head of a surviving `dropWhile` fails the predicate. -/
theorem dropWhile_head_not (p : Char → Bool) (l : List Char) :
    ∀ c t, l.dropWhile p = c :: t → p c = false := by
  induction l with
  | nil => intro c t h; simp [List.dropWhile] at h
  | cons a l ih =>
    intro c t h
    by_cases hp : p a = true
    · rw [List.dropWhile_cons, if_pos hp] at h
      exact ih c t h
    · rw [List.dropWhile_cons, if_neg hp] at h
      cases h
      simpa using hp

theorem specSanitize_mem (s : List Char) :
    ∀ c ∈ specSanitize s, isAlnumA c = true ∨ c = '_' := by
  intro c hc
  unfold specSanitize at hc
  by_cases he : truncAfterLastAlnum (substUnderscore s) = []
  · rw [if_pos he] at hc
    exact Or.inl (unknownToken_alnum c hc)
  · rw [if_neg he] at hc
    unfold truncAfterLastAlnum at hc
    rw [List.mem_reverse] at hc
    have hmem : c ∈ (substUnderscore s).reverse :=
      (List.dropWhile_sublist _).subset hc
    rw [List.mem_reverse] at hmem
    unfold substUnderscore at hmem
    rcases List.mem_map.mp hmem with ⟨a, _, ha⟩
    by_cases hal : isAlnumA a = true
    · rw [if_pos hal] at ha; subst ha; exact Or.inl hal
    · rw [if_neg hal] at ha; exact Or.inr ha.symm

theorem specSanitize_getLast (s : List Char) :
    (specSanitize s).getLast? ≠ some '_' := by
  unfold specSanitize
  by_cases he : truncAfterLastAlnum (substUnderscore s) = []
  · rw [if_pos he]; decide
  · rw [if_neg he]
    intro hcontra
    rw [← List.head?_reverse] at hcontra
    unfold truncAfterLastAlnum at hcontra
    rw [List.reverse_reverse] at hcontra
    cases hdw : (substUnderscore s).reverse.dropWhile (fun c => !isAlnumA c) with
    | nil => rw [hdw] at hcontra; simp at hcontra
    | cons c t =>
      rw [hdw] at hcontra
      have hc : c = '_' := by simpa using hcontra
      have := dropWhile_head_not (fun c => !isAlnumA c) _ c t hdw
      rw [hc] at this
      exact absurd this (by decide)

/-- C2: for every input string, the sanitizer's output contains only
characters in `[A-Za-z0-9_]`, does not end in an underscore, and equals the
underscore-substituted input truncated after its last alphanumeric
character; for inputs with no alphanumeric character at all the output is
exactly the literal token `UNKNOWN`. -/
theorem claim_C2 (s : List Char) :
    (∀ c ∈ dicomtonifti_safe_string s, isAlnumA c = true ∨ c = '_') ∧
    (dicomtonifti_safe_string s).getLast? ≠ some '_' ∧
    ((∃ c ∈ s, isAlnumA c = true) →
      dicomtonifti_safe_string s = truncAfterLastAlnum (substUnderscore s)) ∧
    ((∀ c ∈ s, isAlnumA c = false) →
      dicomtonifti_safe_string s = unknownToken) := by
  rw [dicomtonifti_safe_string_eq]
  refine ⟨specSanitize_mem s, specSanitize_getLast s, ?_, ?_⟩
  · rintro ⟨c, hcs, hc⟩
    have hne : truncAfterLastAlnum (substUnderscore s) ≠ [] := by
      intro hnil
      unfold truncAfterLastAlnum at hnil
      rw [List.reverse_eq_nil_iff, List.dropWhile_eq_nil_iff] at hnil
      have hmem : c ∈ (substUnderscore s).reverse := by
        rw [List.mem_reverse]
        unfold substUnderscore
        exact List.mem_map.mpr ⟨c, hcs, by rw [if_pos hc]⟩
      have := hnil c hmem
      rw [hc] at this
      simp at this
    unfold specSanitize
    rw [if_neg hne]
  · intro hall
    have hnil : truncAfterLastAlnum (substUnderscore s) = [] := by
      unfold truncAfterLastAlnum
      rw [List.reverse_eq_nil_iff, List.dropWhile_eq_nil_iff]
      intro x hx
      rw [List.mem_reverse] at hx
      unfold substUnderscore at hx
      rcases List.mem_map.mp hx with ⟨a, ha, hax⟩
      rw [hall a ha] at hax
      simp at hax
      rw [← hax]
      decide
    unfold specSanitize
    rw [if_pos hnil]

theorem claim_C2_witness :
    ((∃ c ∈ ['a', '!'], isAlnumA c = true) ∧
      dicomtonifti_safe_string ['a', '!'] =
        truncAfterLastAlnum (substUnderscore ['a', '!'])) ∧
    ((∀ c ∈ ['#', '!'], isAlnumA c = false) ∧
      dicomtonifti_safe_string ['#', '!'] = unknownToken) :=
  ⟨⟨by decide, (claim_C2 ['a', '!']).2.2.1 (by decide)⟩,
   ⟨by decide, (claim_C2 ['#', '!']).2.2.2 (by decide)⟩⟩

/-- The six metadata fields used for batch-mode naming. -/
structure Meta6 where
  patientName : List Char
  patientID : List Char
  studyDesc : List Char
  studyID : List Char
  seriesDesc : List Char
  seriesNumber : List Char

/-- Embedding of `dicomtonifti_make_filename` (lines 452-482).  Paths are
modelled by their component lists: `outparts` stands for the result of
`vtksys::SystemTools::SplitPath(outpath)`, the returned component list is
what `JoinPath` serializes, and the three `push_back` calls append the
three synthesized segments. -/
def dicomtonifti_make_filename (outparts : List (List Char)) (meta : Meta6) :
    List (List Char) :=
  let patientName := dicomtonifti_safe_string meta.patientName
  let patientID := dicomtonifti_safe_string meta.patientID
  let studyDesc := dicomtonifti_safe_string meta.studyDesc
  let studyID := dicomtonifti_safe_string meta.studyID
  let seriesDesc := dicomtonifti_safe_string meta.seriesDesc
  let seriesNumber := dicomtonifti_safe_string meta.seriesNumber
  let patientID2 := if patientName ≠ unknownToken then patientName else patientID
  ((outparts ++ [patientID2]) ++ [studyDesc ++ ['-'] ++ studyID]) ++
    [seriesDesc ++ ['_'] ++ seriesNumber ++ ['.', 'n', 'i', 'i']]

/-- C4: the synthesized output path is the output root followed by exactly
three segments — sanitized patient ID (replaced by the sanitized patient
name when that is not `UNKNOWN`), sanitized study description `-` study ID,
and sanitized series description `_` series number `.nii`. -/
theorem claim_C4 (outparts : List (List Char)) (m : Meta6) :
    dicomtonifti_make_filename outparts m =
      outparts ++
        [(if dicomtonifti_safe_string m.patientName ≠ unknownToken
            then dicomtonifti_safe_string m.patientName
            else dicomtonifti_safe_string m.patientID),
          dicomtonifti_safe_string m.studyDesc ++ ['-'] ++
            dicomtonifti_safe_string m.studyID,
          dicomtonifti_safe_string m.seriesDesc ++ ['_'] ++
            dicomtonifti_safe_string m.seriesNumber ++ ['.', 'n', 'i', 'i']] := by
  unfold dicomtonifti_make_filename
  simp

/-- The command-line option record (lines 42-56). -/
structure dicomtonifti_options where
  compress : Bool
  recurse : Bool
  follow_symlinks : Bool
  no_slice_reordering : Bool
  no_row_reordering : Bool
  no_column_reordering : Bool
  no_qform : Bool
  no_sform : Bool
  batch : Bool
  silent : Bool
  verbose : Bool
  output : String

/-- 4×4 matrices of exact rationals, idealizing `vtkMatrix4x4` doubles. -/
abbrev Mat4 := Matrix (Fin 4) (Fin 4) ℚ

/-- The loop at lines 517-521: sign-invert the first two rows of the
check matrix (undo the DICOM-to-NIFTI `x = -x`, `y = -y` convention). -/
def negFirstTwoRows (M : Mat4) : Mat4 :=
  Matrix.of fun i j => if i = 0 ∨ i = 1 then -M i j else M i j

/-- `vtkMatrix4x4::Invert` (line 522) on the idealized rationals:
adjugate divided by the determinant. -/
def inv4 (A : Mat4) : Mat4 := A.det⁻¹ • A.adjugate

/-- The check matrix of lines 513-525:
`PatientMatrix` with its first two rows negated, inverted, then multiplied
by the converter's RAS matrix. -/
def checkMat (patientMatrix rasMatrix : Mat4) : Mat4 :=
  inv4 (negFirstTwoRows patientMatrix) * rasMatrix

/-- The converter-reorder test of line 527: element (2,2) of the check
matrix below the fixed tolerance `-0.1`. -/
def converterReordered (patientMatrix rasMatrix : Mat4) : Bool :=
  decide (checkMat patientMatrix rasMatrix 2 2 < -(1/10))

/-- The reader-reorder test of lines 498-501: `maxId > 0` and the first
file index strictly greater than the last. -/
def readerReordered (fileIndices : List Int) : Bool :=
  decide (1 < fileIndices.length) &&
    decide (fileIndices.headD 0 > fileIndices.getLastD 0)

/-- The state the writer is configured with by `dicomtonifti_convert_one`.
`none` in an `Option` field means the corresponding setter was not
called (the writer object keeps its construction-time state). -/
structure WriterConfig where
  fileName : String
  qfac : Option ℚ
  qform : Option Mat4
  sform : Option Mat4

/-- Embedding of the decision logic of `dicomtonifti_convert_one`
(lines 485-549): the reader-reorder check, the converter-reorder check,
their XOR accumulation (`slicesReordered ^= ...`), and the writer
configuration. -/
def dicomtonifti_convert_one (options : dicomtonifti_options)
    (fileIndices : List Int) (patientMatrix rasMatrix : Mat4)
    (outfile : String) : WriterConfig :=
  let slicesReordered := readerReordered fileIndices
  let slicesReordered := Bool.xor slicesReordered
    (converterReordered patientMatrix rasMatrix)
  { fileName := outfile
    qfac := if options.no_slice_reordering && slicesReordered then some (-1)
            else none
    qform := if !options.no_qform then some rasMatrix else none
    sform := if !options.no_sform then some rasMatrix else none }

/-- On the rationals the embedded cofactor inverse agrees with the
mathematical matrix inverse. -/
theorem inv4_eq_inv (A : Mat4) : inv4 A = A⁻¹ := by
  rw [Matrix.inv_def, Ring.inverse_eq_inv]
  rfl

/-- C6: the converter-reorder check is true exactly when element (2,2) of
(the inverse of the patient matrix with its first two rows sign-inverted)
times the converter's RAS matrix lies strictly below the tolerance
`-0.1`.  The inverse is characterized by any right inverse `N`. -/
theorem claim_C6 (patientMatrix rasMatrix N : Mat4)
    (hN : negFirstTwoRows patientMatrix * N = 1) :
    converterReordered patientMatrix rasMatrix = true ↔
      (N * rasMatrix) 2 2 < -(1/10) := by
  have hinv : inv4 (negFirstTwoRows patientMatrix) = N := by
    rw [inv4_eq_inv]
    exact Matrix.inv_eq_right_inv hN
  unfold converterReordered checkMat
  rw [hinv]
  exact decide_eq_true_iff

theorem claim_C6_witness :
    (negFirstTwoRows 1 * negFirstTwoRows 1 = 1) ∧
    (converterReordered 1 1 = true ↔ (negFirstTwoRows 1 * 1) 2 2 < -(1/10)) := by
  have hN : negFirstTwoRows 1 * negFirstTwoRows 1 = 1 := by
    ext i j
    fin_cases i <;> fin_cases j <;>
      simp [negFirstTwoRows, Matrix.mul_apply, Fin.sum_univ_four, Matrix.one_apply]
  exact ⟨hN, claim_C6 1 1 (negFirstTwoRows 1) hN⟩

/-- For a nonempty file-index array the `maxId > 0` guard is redundant:
the reader-reorder check is first-entry-greater-than-last-entry. -/
theorem readerReordered_eq_headD_getLastD (idx : List Int) (h : idx ≠ []) :
    readerReordered idx = decide (idx.headD 0 > idx.getLastD 0) := by
  match idx, h with
  | [c], _ =>
    simp [readerReordered]
  | c :: d :: t, _ =>
    have hlen : 1 < (c :: d :: t).length := by simp
    simp only [readerReordered, hlen, decide_eq_true_eq]
    simp

/-- C1: the net slice-reorder decision is the XOR of the reader-reorder
check (first file index exceeds the last) and the converter-reorder check,
and QFac is set to `-1` precisely when no-slice-reordering is requested and
that XOR holds; otherwise the QFac setter is not invoked. -/
theorem claim_C1 (options : dicomtonifti_options) (fileIndices : List Int)
    (patientMatrix rasMatrix : Mat4) (outfile : String)
    (h : fileIndices ≠ []) :
    readerReordered fileIndices =
      decide (fileIndices.headD 0 > fileIndices.getLastD 0) ∧
    (dicomtonifti_convert_one options fileIndices patientMatrix rasMatrix
        outfile).qfac =
      (if options.no_slice_reordering = true ∧
          Bool.xor (readerReordered fileIndices)
            (converterReordered patientMatrix rasMatrix) = true
        then some (-1) else none) := by
  refine ⟨readerReordered_eq_headD_getLastD fileIndices h, ?_⟩
  unfold dicomtonifti_convert_one
  by_cases h1 : options.no_slice_reordering = true <;>
    by_cases h2 : Bool.xor (readerReordered fileIndices)
        (converterReordered patientMatrix rasMatrix) = true <;>
      simp [h1, h2]

/-- A fixed sample option record for concrete instantiations. -/
def optsA : dicomtonifti_options :=
  { compress := false, recurse := false, follow_symlinks := false,
    no_slice_reordering := true, no_row_reordering := false,
    no_column_reordering := false, no_qform := false, no_sform := false,
    batch := false, silent := false, verbose := false, output := "out.nii" }

theorem claim_C1_witness :
    (([3, 1] : List Int) ≠ []) ∧
    (readerReordered [3, 1] =
      decide (([3, 1] : List Int).headD 0 > ([3, 1] : List Int).getLastD 0) ∧
    (dicomtonifti_convert_one optsA [3, 1] 1 1 "out.nii").qfac =
      (if optsA.no_slice_reordering = true ∧
          Bool.xor (readerReordered [3, 1]) (converterReordered 1 1) = true
        then some (-1) else none)) :=
  ⟨by simp, claim_C1 optsA [3, 1] 1 1 "out.nii" (by simp)⟩

/-- C10: a single-entry file-index array never triggers the reader-reorder
check, so with no-slice-reordering requested the negative QFac can come
only from the converter's orientation sign test. -/
theorem claim_C10 (options : dicomtonifti_options) (fileIndices : List Int)
    (patientMatrix rasMatrix : Mat4) (outfile : String)
    (h : fileIndices.length = 1) :
    readerReordered fileIndices = false ∧
    ((dicomtonifti_convert_one options fileIndices patientMatrix rasMatrix
        outfile).qfac = some (-1) ↔
      options.no_slice_reordering = true ∧
        converterReordered patientMatrix rasMatrix = true) := by
  have hr : readerReordered fileIndices = false := by
    unfold readerReordered
    rw [h]
    simp
  refine ⟨hr, ?_⟩
  unfold dicomtonifti_convert_one
  rw [hr]
  by_cases h1 : options.no_slice_reordering = true <;>
    by_cases h2 : converterReordered patientMatrix rasMatrix = true <;>
      simp [h1, h2]

theorem claim_C10_witness :
    (([7] : List Int).length = 1) ∧
    (readerReordered [7] = false ∧
    ((dicomtonifti_convert_one optsA [7] 1 1 "out.nii").qfac = some (-1) ↔
      optsA.no_slice_reordering = true ∧ converterReordered 1 1 = true)) :=
  ⟨by simp, claim_C10 optsA [7] 1 1 "out.nii" (by simp)⟩

/-- Embedding of the single-file-mode output naming of
`dicomtonifti_convert_files` (lines 563-579): when compressing, append
`.gz` unless `os > 2` fails or the path already ends in a
case-insensitive `.gz`. -/
def dicomtonifti_single_outfile (compress : Bool) (outpath : List Char) :
    List Char :=
  if compress then
    if 2 < outpath.length ∧
        (outpath.getD (outpath.length - 3) ' ' ≠ '.' ∨
          toLowerA (outpath.getD (outpath.length - 2) ' ') ≠ 'g' ∨
          toLowerA (outpath.getD (outpath.length - 1) ' ') ≠ 'z')
    then outpath ++ ['.', 'g', 'z']
    else outpath
  else outpath

/-- Embedding of the batch-mode compression suffix (lines 608-611):
`.gz` is appended unconditionally when compressing. -/
def dicomtonifti_batch_outfile (compress : Bool) (outfile : List Char) :
    List Char :=
  if compress then outfile ++ ['.', 'g', 'z'] else outfile

/-- Spec-side: the path ends in a case-insensitive `.gz` suffix. -/
def endsInGzCI (p : List Char) : Prop :=
  ∃ q c2 c3, p = q ++ ['.', c2, c3] ∧ toLowerA c2 = 'g' ∧ toLowerA c3 = 'z'

theorem exists_last_three (p : List Char) (h : 2 < p.length) :
    ∃ q a b c, p = q ++ [a, b, c] := by
  have hlen : (p.drop (p.length - 3)).length = 3 := by
    rw [List.length_drop]; omega
  rcases hd : p.drop (p.length - 3) with _ | ⟨a, _ | ⟨b, _ | ⟨c, _ | ⟨e, t⟩⟩⟩⟩ <;>
      rw [hd] at hlen <;> simp at hlen
  exact ⟨p.take (p.length - 3), a, b, c, by
    conv_lhs => rw [← List.take_append_drop (p.length - 3) p]
    rw [hd]⟩

/-- For paths longer than two characters, the positional test of
lines 569-572 is exactly the case-insensitive `.gz` suffix test. -/
theorem endsInGzCI_iff (p : List Char) (h : 2 < p.length) :
    endsInGzCI p ↔
      (p.getD (p.length - 3) ' ' = '.' ∧
        toLowerA (p.getD (p.length - 2) ' ') = 'g' ∧
        toLowerA (p.getD (p.length - 1) ' ') = 'z') := by
  obtain ⟨q, a, b, c, rfl⟩ := exists_last_three p h
  have hl : (q ++ [a, b, c]).length = q.length + 3 := by simp
  have e3 : (q ++ [a, b, c]).getD ((q ++ [a, b, c]).length - 3) ' ' = a := by
    rw [hl, List.getD_append_right _ _ _ _ (by omega)]
    have h0 : q.length + 3 - 3 - q.length = 0 := by omega
    rw [h0]; rfl
  have e2 : (q ++ [a, b, c]).getD ((q ++ [a, b, c]).length - 2) ' ' = b := by
    rw [hl, List.getD_append_right _ _ _ _ (by omega)]
    have h0 : q.length + 3 - 2 - q.length = 1 := by omega
    rw [h0]; rfl
  have e1 : (q ++ [a, b, c]).getD ((q ++ [a, b, c]).length - 1) ' ' = c := by
    rw [hl, List.getD_append_right _ _ _ _ (by omega)]
    have h0 : q.length + 3 - 1 - q.length = 2 := by omega
    rw [h0]; rfl
  rw [e3, e2, e1]
  constructor
  · rintro ⟨q2, c2, c3, heq, hg, hz⟩
    obtain ⟨-, h2⟩ := List.append_inj' heq (by simp)
    injection h2 with h2a h2b
    injection h2b with h2c h2d
    injection h2d with h2e
    exact ⟨h2a, by rw [h2c]; exact hg, by rw [h2e]; exact hz⟩
  · rintro ⟨ha, hb, hc⟩
    exact ⟨q, b, c, by rw [ha], hb, hc⟩

/-- C7 counterexample: the two-character output path `"ab"` does not end
in `.gz`, yet with compression enabled the single-file mode leaves it
unchanged instead of appending `.gz` (the `os > 2` guard of line 569). -/
theorem claim_C7_counterexample :
    ¬ endsInGzCI ['a', 'b'] ∧
    dicomtonifti_single_outfile true ['a', 'b'] = ['a', 'b'] ∧
    (['a', 'b'] : List Char) ≠ ['a', 'b'] ++ ['.', 'g', 'z'] := by
  refine ⟨?_, by decide, by decide⟩
  rintro ⟨q, c2, c3, hp, -, -⟩
  have := congrArg List.length hp
  simp at this

/-- C7 as amended: with compression enabled, single-file mode appends
`.gz` to every output path longer than two characters that lacks a
case-insensitive `.gz` suffix, leaves paths with the suffix unchanged,
leaves paths of at most two characters unchanged, and batch mode always
appends `.gz`. -/
theorem claim_C7_amended (outpath synth : List Char) :
    (2 < outpath.length → ¬ endsInGzCI outpath →
      dicomtonifti_single_outfile true outpath = outpath ++ ['.', 'g', 'z']) ∧
    (endsInGzCI outpath → dicomtonifti_single_outfile true outpath = outpath) ∧
    (outpath.length ≤ 2 → dicomtonifti_single_outfile true outpath = outpath) ∧
    dicomtonifti_batch_outfile true synth = synth ++ ['.', 'g', 'z'] := by
  refine ⟨?_, ?_, ?_, by simp [dicomtonifti_batch_outfile]⟩
  · intro hlen hgz
    rw [endsInGzCI_iff outpath hlen] at hgz
    have hcond : 2 < outpath.length ∧
        (outpath.getD (outpath.length - 3) ' ' ≠ '.' ∨
          toLowerA (outpath.getD (outpath.length - 2) ' ') ≠ 'g' ∨
          toLowerA (outpath.getD (outpath.length - 1) ' ') ≠ 'z') := by
      refine ⟨hlen, ?_⟩
      by_contra hno
      push_neg at hno
      exact hgz ⟨hno.1, hno.2.1, hno.2.2⟩
    unfold dicomtonifti_single_outfile
    rw [if_pos rfl, if_pos hcond]
  · intro hgz
    obtain ⟨q, c2, c3, heq, hg, hz⟩ := hgz
    have hlen : 2 < outpath.length := by
      rw [heq]
      simp only [List.length_append, List.length_cons, List.length_nil]
      omega
    have hiff := (endsInGzCI_iff outpath hlen).mp ⟨q, c2, c3, heq, hg, hz⟩
    have hnc : ¬ (2 < outpath.length ∧
        (outpath.getD (outpath.length - 3) ' ' ≠ '.' ∨
          toLowerA (outpath.getD (outpath.length - 2) ' ') ≠ 'g' ∨
          toLowerA (outpath.getD (outpath.length - 1) ' ') ≠ 'z')) := by
      rintro ⟨-, hd | hd | hd⟩
      exacts [hd hiff.1, hd hiff.2.1, hd hiff.2.2]
    unfold dicomtonifti_single_outfile
    rw [if_pos rfl, if_neg hnc]
  · intro hle
    have hnc : ¬ (2 < outpath.length ∧
        (outpath.getD (outpath.length - 3) ' ' ≠ '.' ∨
          toLowerA (outpath.getD (outpath.length - 2) ' ') ≠ 'g' ∨
          toLowerA (outpath.getD (outpath.length - 1) ' ') ≠ 'z')) := by
      rintro ⟨hlt, -⟩
      omega
    unfold dicomtonifti_single_outfile
    rw [if_pos rfl, if_neg hnc]

/-- The interface of the external `vtkDICOMSorter` that batch mode
consumes (lines 588-593). -/
structure SorterInfo where
  numberOfStudies : Nat
  firstSeriesInStudy : Nat → Nat
  numberOfSeriesInStudy : Nat → Nat

/-- Observable side effects of the batch loop: directory creation
(`MakeDirectory`, line 618) and series conversion (line 632), tagged with
the study and series ordinals at which they are issued. -/
inductive BEvent
  | mkdir (study series : Nat)
  | convert (study series : Nat)
deriving DecidableEq

def isMkdir : BEvent → Bool
  | BEvent.mkdir _ _ => true
  | BEvent.convert _ _ => false

def eventStudy : BEvent → Nat
  | BEvent.mkdir j _ => j
  | BEvent.convert j _ => j

/-- One iteration of the inner series loop (lines 594-633): create the
directory exactly when `k == sorter->GetFirstSeriesInStudy(j)`, then
convert. -/
def batchSeriesEvents (first j k : Nat) : List BEvent :=
  (if k = first then [BEvent.mkdir j k] else []) ++ [BEvent.convert j k]

/-- The inner `for (; k < n; k++)` loop, recursing on the remaining
series count. -/
def batchStudyLoop (j first : Nat) : Nat → Nat → List BEvent
  | _, 0 => []
  | k, Nat.succ cnt => batchSeriesEvents first j k ++ batchStudyLoop j first (k + 1) cnt

/-- All events of one study (lines 591-594): `k` starts at the study's
first series ordinal and runs over its series count. -/
def batchStudyEvents (s : SorterInfo) (j : Nat) : List BEvent :=
  batchStudyLoop j (s.firstSeriesInStudy j) (s.firstSeriesInStudy j)
    (s.numberOfSeriesInStudy j)

/-- The outer study loop (lines 588-590). -/
def batchEventsLoop (s : SorterInfo) : Nat → Nat → List BEvent
  | _, 0 => []
  | j, Nat.succ cnt => batchStudyEvents s j ++ batchEventsLoop s (j + 1) cnt

/-- The full event trace of the batch branch of
`dicomtonifti_convert_files`. -/
def dicomtonifti_batch_events (s : SorterInfo) : List BEvent :=
  batchEventsLoop s 0 s.numberOfStudies

theorem batchStudyLoop_study (j first : Nat) :
    ∀ (cnt k : Nat), ∀ e ∈ batchStudyLoop j first k cnt, eventStudy e = j := by
  intro cnt
  induction cnt with
  | zero => intro k e he; simp [batchStudyLoop] at he
  | succ cnt ih =>
    intro k e he
    simp only [batchStudyLoop, batchSeriesEvents, List.mem_append] at he
    rcases he with (he | he) | he
    · by_cases hk : k = first
      · rw [if_pos hk] at he
        simp at he
        rw [he]; rfl
      · rw [if_neg hk] at he
        simp at he
    · simp at he
      rw [he]; rfl
    · exact ih (k + 1) e he

theorem batchStudyLoop_mkdir_nil (j first : Nat) :
    ∀ (cnt k : Nat), first < k →
      (batchStudyLoop j first k cnt).filter isMkdir = [] := by
  intro cnt
  induction cnt with
  | zero => intro k _; simp [batchStudyLoop]
  | succ cnt ih =>
    intro k hk
    simp only [batchStudyLoop, batchSeriesEvents, List.filter_append]
    rw [if_neg (by omega)]
    simp only [List.filter_nil, List.nil_append]
    rw [ih (k + 1) (by omega)]
    simp [isMkdir]

theorem batchStudyLoop_mkdir_one (j first cnt : Nat) :
    (batchStudyLoop j first first (cnt + 1)).filter isMkdir =
      [BEvent.mkdir j first] := by
  simp only [batchStudyLoop, batchSeriesEvents, List.filter_append, if_pos rfl]
  rw [batchStudyLoop_mkdir_nil j first cnt (first + 1) (by omega)]
  simp [isMkdir]

theorem batchEventsLoop_study_ge (s : SorterInfo) :
    ∀ (cnt j0 : Nat), ∀ e ∈ batchEventsLoop s j0 cnt, j0 ≤ eventStudy e := by
  intro cnt
  induction cnt with
  | zero => intro j0 e he; simp [batchEventsLoop] at he
  | succ cnt ih =>
    intro j0 e he
    simp only [batchEventsLoop, batchStudyEvents, List.mem_append] at he
    rcases he with he | he
    · have := batchStudyLoop_study j0 (s.firstSeriesInStudy j0) _ _ e he
      omega
    · have := ih (j0 + 1) e he
      omega

theorem batchEventsLoop_mkdir (s : SorterInfo) (j : Nat)
    (hn : 1 ≤ s.numberOfSeriesInStudy j) :
    ∀ (cnt j0 : Nat), j0 ≤ j → j < j0 + cnt →
      (batchEventsLoop s j0 cnt).filter
          (fun e => isMkdir e && (eventStudy e == j)) =
        [BEvent.mkdir j (s.firstSeriesInStudy j)] := by
  intro cnt
  induction cnt with
  | zero => intro j0 h1 h2; omega
  | succ cnt ih =>
    intro j0 h1 h2
    simp only [batchEventsLoop, List.filter_append]
    by_cases hj : j0 = j
    · subst hj
      have hstudy : (batchStudyEvents s j0).filter
          (fun e => isMkdir e && (eventStudy e == j0)) =
          (batchStudyEvents s j0).filter isMkdir := by
        apply List.filter_congr
        intro e he
        have hst := batchStudyLoop_study j0 (s.firstSeriesInStudy j0) _ _ e he
        simp [hst]
      have hrest : (batchEventsLoop s (j0 + 1) cnt).filter
          (fun e => isMkdir e && (eventStudy e == j0)) = [] := by
        rw [List.filter_eq_nil_iff]
        intro e he
        have := batchEventsLoop_study_ge s cnt (j0 + 1) e he
        simp only [Bool.and_eq_true, beq_iff_eq, not_and]
        intro _
        omega
      rw [hstudy, hrest, List.append_nil]
      obtain ⟨c, hc⟩ : ∃ c, s.numberOfSeriesInStudy j0 = c + 1 :=
        ⟨s.numberOfSeriesInStudy j0 - 1, by omega⟩
      unfold batchStudyEvents
      rw [hc]
      exact batchStudyLoop_mkdir_one j0 (s.firstSeriesInStudy j0) c
    · have hblock : (batchStudyEvents s j0).filter
          (fun e => isMkdir e && (eventStudy e == j)) = [] := by
        rw [List.filter_eq_nil_iff]
        intro e he
        have hst := batchStudyLoop_study j0 (s.firstSeriesInStudy j0) _ _ e he
        simp only [Bool.and_eq_true, beq_iff_eq, not_and]
        intro _
        omega
      rw [hblock, List.nil_append]
      exact ih (j0 + 1) (by omega) (by omega)

/-- C9: in batch mode the output directory creation is issued exactly once
per study, at the first series of that study: the mkdir events of the
whole batch trace belonging to study `j` are exactly one event, tagged
with the study's first series ordinal. -/
theorem claim_C9 (s : SorterInfo) (j : Nat) (hj : j < s.numberOfStudies)
    (hn : 1 ≤ s.numberOfSeriesInStudy j) :
    (dicomtonifti_batch_events s).filter
        (fun e => isMkdir e && (eventStudy e == j)) =
      [BEvent.mkdir j (s.firstSeriesInStudy j)] := by
  unfold dicomtonifti_batch_events
  exact batchEventsLoop_mkdir s j hn s.numberOfStudies 0 (by omega) (by omega)

/-- The specification's end-to-end scenario: one study with two series. -/
def sorterA : SorterInfo :=
  { numberOfStudies := 1, firstSeriesInStudy := fun _ => 0,
    numberOfSeriesInStudy := fun _ => 2 }

theorem claim_C9_witness :
    (0 < sorterA.numberOfStudies) ∧ (1 ≤ sorterA.numberOfSeriesInStudy 0) ∧
    (dicomtonifti_batch_events sorterA).filter
        (fun e => isMkdir e && (eventStudy e == 0)) =
      [BEvent.mkdir 0 (sorterA.firstSeriesInStudy 0)] :=
  ⟨by decide, by decide, claim_C9 sorterA 0 (by decide) (by decide)⟩

/-- The view of the filesystem consumed by the walk: the vtksys
collaborator calls of lines 648-706.  `listDir` returns `none` when
`Directory::Load` fails; `dirRealPaths` is the (finite) set of canonical
real paths of the directories the system can open. -/
structure FileSystemModel where
  isDirFile : String → Bool
  isSymlink : String → Bool
  realPath : String → String
  listDir : String → Option (List String)
  childPath : String → String → String
  dirRealPaths : Finset String

/-- Lines 652-654: the entry names a directory (trailing separator on a
path longer than one character, or the filesystem check). -/
def isDirEntry (fs : FileSystemModel) (fname : String) : Bool :=
  (1 < fname.length && (fname.back == '/' || fname.back == '\\')) ||
    fs.isDirFile fname

/-- Lines 656-659: the gate deciding whether a directory entry becomes an
expansion candidate: first level (`pastdirs` still empty) always, deeper
levels only under `recurse` and the symlink policy. -/
def expandGate (options : dicomtonifti_options) (pastdirs : Finset String)
    (fs : FileSystemModel) (fname : String) : Bool :=
  decide (pastdirs.card = 0) ||
    (options.recurse && (options.follow_symlinks || !fs.isSymlink fname))

/-- The directory half of the partition loop of lines 648-668. -/
def dirCandidates (fs : FileSystemModel) (options : dicomtonifti_options)
    (files : List String) (pastdirs : Finset String) : List String :=
  files.filter (fun f => isDirEntry fs f && expandGate options pastdirs fs f)

/-- The plain-file half of the partition loop of lines 648-668. -/
def newFilesOf (fs : FileSystemModel) (files : List String) : List String :=
  files.filter (fun f => !isDirEntry fs f)

/-- Lines 693-706: full paths of a directory's listed entries, skipping
hidden entries (leading `.`). -/
def childEntries (fs : FileSystemModel) (dirname : String)
    (entries : List String) : List String :=
  (entries.filter (fun e => !(e.startsWith "."))).map
    (fun e => fs.childPath dirname e)

/-- State threaded through the walk: the batches of plain files handed to
`dicomtonifti_convert_files`, the trace of expanded real paths in
expansion order, and the visited set `pastdirs`. -/
structure WalkState where
  batches : List (List String)
  trace : List String
  pastdirs : Finset String

/-- The directory loop of lines 675-709, parameterized by the function `w`
used for the recursive call of line 707.  For each candidate: consult the
visited set with the canonical real path (line 684), skip if present,
insert it (line 685), then either warn-and-skip when the directory cannot
be opened (lines 687-690) or recurse into its listing. -/
def walkDirLoop (fs : FileSystemModel)
    (w : List String → Finset String → Option WalkState) :
    List String → WalkState → Option WalkState
  | [], st => some st
  | dirname :: rest, st =>
    if fs.realPath dirname ∈ st.pastdirs then walkDirLoop fs w rest st
    else
      match fs.listDir dirname with
      | none => walkDirLoop fs w rest
          { st with pastdirs := insert (fs.realPath dirname) st.pastdirs }
      | some entries =>
        match w (childEntries fs dirname entries)
            (insert (fs.realPath dirname) st.pastdirs) with
        | none => none
        | some st2 => walkDirLoop fs w rest
            { batches := st.batches ++ st2.batches
              trace := st.trace ++ fs.realPath dirname :: st2.trace
              pastdirs := st2.pastdirs }

/-- Embedding of `dicomtonifti_files_and_dirs` (lines 639-710) with an
explicit recursion-depth fuel; `none` is fuel exhaustion, which the C
function does not have — `claim_C3` shows a sufficient fuel always
exists.  The non-directory entries are passed to
`dicomtonifti_convert_files` when nonempty (lines 670-673). -/
def dicomtonifti_files_and_dirs (fs : FileSystemModel)
    (options : dicomtonifti_options) :
    Nat → List String → Finset String → Option WalkState
  | 0, _, _ => none
  | Nat.succ fuel, files, pastdirs =>
    walkDirLoop fs (fun fl ps => dicomtonifti_files_and_dirs fs options fuel fl ps)
      (dirCandidates fs options files pastdirs)
      { batches := if (newFilesOf fs files).isEmpty then []
                   else [newFilesOf fs files]
        trace := [], pastdirs := pastdirs }

/-- Well-formedness of the filesystem model: a directory the system can
actually open has its canonical real path in the finite `dirRealPaths`. -/
def FSWellFormed (fs : FileSystemModel) : Prop :=
  ∀ d : String, fs.listDir d ≠ none → fs.realPath d ∈ fs.dirRealPaths

/-- Invariant of one walk segment: visited set only grows, the newly
expanded real paths are distinct, none of them was already visited, and
all of them are visited afterwards. -/
def GoodRun (past : Finset String) (trNew : List String)
    (past2 : Finset String) : Prop :=
  past ⊆ past2 ∧ trNew.Nodup ∧ (∀ x ∈ trNew, x ∉ past) ∧
    ∀ x ∈ trNew, x ∈ past2

/-- Composing one expansion with the rest of the loop preserves the
invariant. -/
theorem GoodRun.comb {past pmid p2 : Finset String} {rp : String}
    {tr1 tr2 : List String} (hrp : rp ∉ past)
    (h1 : GoodRun (insert rp past) tr1 pmid) (h2 : GoodRun pmid tr2 p2) :
    GoodRun past (rp :: (tr1 ++ tr2)) p2 := by
  obtain ⟨a1, b1, c1, d1⟩ := h1
  obtain ⟨a2, b2, c2, d2⟩ := h2
  have hrpmid : rp ∈ pmid := a1 (Finset.mem_insert_self rp past)
  refine ⟨?_, ?_, ?_, ?_⟩
  · exact subset_trans (subset_trans (Finset.subset_insert rp past) a1) a2
  · rw [List.nodup_cons]
    refine ⟨?_, ?_⟩
    · intro hmem
      rcases List.mem_append.mp hmem with hm | hm
      · exact c1 rp hm (Finset.mem_insert_self rp past)
      · exact c2 rp hm hrpmid
    · rw [List.nodup_append]
      exact ⟨b1, b2, fun x hx1 hx2 => c2 x hx2 (d1 x hx1)⟩
  · intro x hx
    rcases List.mem_cons.mp hx with rfl | hx
    · exact hrp
    · rcases List.mem_append.mp hx with hm | hm
      · exact fun hp => c1 x hm (Finset.mem_insert_of_mem hp)
      · exact fun hp => c2 x hm (a1 (Finset.mem_insert_of_mem hp))
  · intro x hx
    rcases List.mem_cons.mp hx with rfl | hx
    · exact a2 hrpmid
    · rcases List.mem_append.mp hx with hm | hm
      · exact a2 (d1 x hm)
      · exact d2 x hm

/-- The directory loop satisfies the invariant whenever the nested walk
does. -/
theorem walkDirLoop_good (fs : FileSystemModel)
    (w : List String → Finset String → Option WalkState)
    (hw : ∀ fl ps st, w fl ps = some st → GoodRun ps st.trace st.pastdirs) :
    ∀ (dirs : List String) (st st2 : WalkState),
      walkDirLoop fs w dirs st = some st2 →
      ∃ trNew, st2.trace = st.trace ++ trNew ∧
        GoodRun st.pastdirs trNew st2.pastdirs := by
  intro dirs
  induction dirs with
  | nil =>
    intro st st2 h
    have hst : st = st2 := by simpa [walkDirLoop] using h
    subst hst
    exact ⟨[], by simp, subset_refl _, List.nodup_nil, by simp, by simp⟩
  | cons d rest ih =>
    intro st st2 h
    unfold walkDirLoop at h
    by_cases hmem : fs.realPath d ∈ st.pastdirs
    · rw [if_pos hmem] at h
      exact ih st st2 h
    · rw [if_neg hmem] at h
      cases hld : fs.listDir d with
      | none =>
        rw [hld] at h
        obtain ⟨trNew, htr, hgr⟩ := ih _ st2 h
        obtain ⟨a1, b1, c1, d1⟩ := hgr
        exact ⟨trNew, htr,
          subset_trans (Finset.subset_insert _ _) a1, b1,
          fun x hx hxp => c1 x hx (Finset.mem_insert_of_mem hxp), d1⟩
      | some entries =>
        rw [hld] at h
        replace h : (match w (childEntries fs d entries)
              (insert (fs.realPath d) st.pastdirs) with
            | none => none
            | some stS => walkDirLoop fs w rest
                { batches := st.batches ++ stS.batches
                  trace := st.trace ++ fs.realPath d :: stS.trace
                  pastdirs := stS.pastdirs }) = some st2 := h
        cases hw2 : w (childEntries fs d entries)
            (insert (fs.realPath d) st.pastdirs) with
        | none => rw [hw2] at h; exact absurd h (by simp)
        | some stSub =>
          rw [hw2] at h
          obtain ⟨trNew2, htr2, hgr2⟩ := ih _ st2 h
          have hgr1 := hw _ _ _ hw2
          refine ⟨fs.realPath d :: (stSub.trace ++ trNew2), ?_, ?_⟩
          · rw [htr2]; simp
          · exact GoodRun.comb hmem hgr1 hgr2

/-- Every successful walk satisfies the invariant: the visited set only
grows, and the expanded real paths are pairwise distinct and fresh. -/
theorem files_and_dirs_good (fs : FileSystemModel)
    (options : dicomtonifti_options) :
    ∀ (fuel : Nat) (files : List String) (past : Finset String)
      (st : WalkState),
      dicomtonifti_files_and_dirs fs options fuel files past = some st →
      GoodRun past st.trace st.pastdirs := by
  intro fuel
  induction fuel with
  | zero =>
    intro files past st h
    simp [dicomtonifti_files_and_dirs] at h
  | succ fuel ih =>
    intro files past st h
    unfold dicomtonifti_files_and_dirs at h
    obtain ⟨trNew, htr, hgr⟩ :=
      walkDirLoop_good fs _ (fun fl ps st2 hst2 => ih fl ps st2 hst2) _ _ _ h
    have htr2 : st.trace = trNew := by simpa using htr
    rw [htr2]
    exact hgr

theorem sdiff_insert_card_le (valid ps : Finset String) (rp : String) :
    (valid \ insert rp ps).card ≤ (valid \ ps).card := by
  rw [Finset.sdiff_insert]
  exact Finset.card_le_card (Finset.erase_subset rp (valid \ ps))

theorem sdiff_insert_card_lt (valid ps : Finset String) (rp : String)
    (hv : rp ∈ valid) (hp : rp ∉ ps) :
    (valid \ insert rp ps).card < (valid \ ps).card := by
  rw [Finset.sdiff_insert]
  exact Finset.card_erase_lt_of_mem (Finset.mem_sdiff.mpr ⟨hv, hp⟩)

/-- The directory loop cannot fail when the nested walk has enough fuel:
each nested call happens only after a fresh real path from the finite
directory set enters the visited set, so `K` bounds the nesting need. -/
theorem walkDirLoop_some (fs : FileSystemModel) (hfs : FSWellFormed fs)
    (w : List String → Finset String → Option WalkState) (K : Nat)
    (hwg : ∀ fl ps st, w fl ps = some st → GoodRun ps st.trace st.pastdirs)
    (hwt : ∀ fl ps, (fs.dirRealPaths \ ps).card < K → w fl ps ≠ none) :
    ∀ (dirs : List String) (st : WalkState),
      (fs.dirRealPaths \ st.pastdirs).card ≤ K →
      walkDirLoop fs w dirs st ≠ none := by
  intro dirs
  induction dirs with
  | nil => intro st _; simp [walkDirLoop]
  | cons d rest ih =>
    intro st hc
    unfold walkDirLoop
    by_cases hmem : fs.realPath d ∈ st.pastdirs
    · rw [if_pos hmem]
      exact ih st hc
    · rw [if_neg hmem]
      cases hld : fs.listDir d with
      | none =>
        apply ih
        calc (fs.dirRealPaths \ insert (fs.realPath d) st.pastdirs).card
            ≤ (fs.dirRealPaths \ st.pastdirs).card :=
              sdiff_insert_card_le _ _ _
          _ ≤ K := hc
      | some entries =>
        have hrp : fs.realPath d ∈ fs.dirRealPaths :=
          hfs d (by rw [hld]; simp)
        have hlt : (fs.dirRealPaths \ insert (fs.realPath d) st.pastdirs).card
            < K :=
          lt_of_lt_of_le (sdiff_insert_card_lt _ _ _ hrp hmem) hc
        show (match w (childEntries fs d entries)
            (insert (fs.realPath d) st.pastdirs) with
          | none => none
          | some stS => walkDirLoop fs w rest
              { batches := st.batches ++ stS.batches
                trace := st.trace ++ fs.realPath d :: stS.trace
                pastdirs := stS.pastdirs }) ≠ none
        cases hw2 : w (childEntries fs d entries)
            (insert (fs.realPath d) st.pastdirs) with
        | none => exact absurd hw2 (hwt _ _ hlt)
        | some stSub =>
          apply ih
          have hsub : insert (fs.realPath d) st.pastdirs ⊆ stSub.pastdirs :=
            (hwg _ _ _ hw2).1
          calc (fs.dirRealPaths \ stSub.pastdirs).card
              ≤ (fs.dirRealPaths \ insert (fs.realPath d) st.pastdirs).card :=
                Finset.card_le_card (Finset.sdiff_subset_sdiff
                  (subset_refl _) hsub)
            _ ≤ K := le_of_lt hlt

/-- With fuel exceeding the number of unvisited real directories the walk
cannot run out. -/
theorem files_and_dirs_some (fs : FileSystemModel) (hfs : FSWellFormed fs)
    (options : dicomtonifti_options) :
    ∀ (fuel : Nat) (files : List String) (past : Finset String),
      (fs.dirRealPaths \ past).card < fuel →
      dicomtonifti_files_and_dirs fs options fuel files past ≠ none := by
  intro fuel
  induction fuel with
  | zero => intro _ _ h; omega
  | succ fuel ih =>
    intro files past hc
    unfold dicomtonifti_files_and_dirs
    exact walkDirLoop_some fs hfs _ fuel
      (fun fl ps st2 h => files_and_dirs_good fs options fuel fl ps st2 h)
      (fun fl ps h => ih fl ps h) _ _
      (show (fs.dirRealPaths \ past).card ≤ fuel by omega)

/-- C3: on any well-formed filesystem — symlink cycles included — the
recursive walk terminates (any fuel exceeding the number of unvisited
real directories suffices), the expanded canonical real paths are
pairwise distinct and were not previously visited, and the visited set
only grows over the whole invocation. -/
theorem claim_C3 (fs : FileSystemModel) (hfs : FSWellFormed fs)
    (options : dicomtonifti_options) (files : List String)
    (past : Finset String) (fuel : Nat)
    (hfuel : (fs.dirRealPaths \ past).card < fuel) :
    ∃ st : WalkState,
      dicomtonifti_files_and_dirs fs options fuel files past = some st ∧
      st.trace.Nodup ∧ (∀ x ∈ st.trace, x ∉ past) ∧ past ⊆ st.pastdirs := by
  cases h : dicomtonifti_files_and_dirs fs options fuel files past with
  | none => exact absurd h (files_and_dirs_some fs hfs options fuel files past hfuel)
  | some st =>
    have hg := files_and_dirs_good fs options fuel files past st h
    exact ⟨st, rfl, hg.2.1, hg.2.2.1, hg.1⟩

/-- A two-directory symlink cycle: `a` lists a symlink to `b`, `b` lists
a symlink back to `a`. -/
def fsCycle : FileSystemModel :=
  { isDirFile := fun s => s.endsWith "a" || s.endsWith "b"
    isSymlink := fun s => 1 < s.length
    realPath := fun s =>
      if s.endsWith "a" then "A" else if s.endsWith "b" then "B" else s
    listDir := fun s =>
      if s.endsWith "a" then some ["b"]
      else if s.endsWith "b" then some ["a"] else none
    childPath := fun d e => d ++ "/" ++ e
    dirRealPaths := {"A", "B"} }

theorem fsCycle_wf : FSWellFormed fsCycle := by
  intro d h
  by_cases ha : d.endsWith "a"
  · simp [fsCycle, ha]
  · by_cases hb : d.endsWith "b"
    · simp [fsCycle, ha, hb]
    · exact absurd (by simp [fsCycle, ha, hb]) h

/-- Recursing options with symlink following, as in `-rL`. -/
def optsR : dicomtonifti_options :=
  { compress := false, recurse := true, follow_symlinks := true,
    no_slice_reordering := false, no_row_reordering := false,
    no_column_reordering := false, no_qform := false, no_sform := false,
    batch := true, silent := false, verbose := false, output := "." }

theorem claim_C3_witness :
    ((fsCycle.dirRealPaths \ (∅ : Finset String)).card < 3) ∧
    ∃ st : WalkState,
      dicomtonifti_files_and_dirs fsCycle optsR 3 ["a"] ∅ = some st ∧
      st.trace.Nodup ∧ (∀ x ∈ st.trace, x ∉ (∅ : Finset String)) ∧
      (∅ : Finset String) ⊆ st.pastdirs :=
  ⟨by decide, claim_C3 fsCycle fsCycle_wf optsR ["a"] ∅ 3 (by decide)⟩

/-- C5: at the very first level (nothing expanded yet, `pastdirs` empty)
every directory entry is an expansion candidate regardless of `recurse`;
at deeper levels a directory is a candidate exactly when `recurse` is on
and either `follow_symlinks` is on or the entry is not a symlink; and
non-directory entries pass through unchanged into the plain file list. -/
theorem claim_C5 (fs : FileSystemModel) (options : dicomtonifti_options)
    (files : List String) (pastdirs : Finset String) :
    (pastdirs = ∅ →
      dirCandidates fs options files pastdirs =
        files.filter (fun f => isDirEntry fs f)) ∧
    (pastdirs ≠ ∅ →
      dirCandidates fs options files pastdirs =
        files.filter (fun f => isDirEntry fs f &&
          (options.recurse &&
            (options.follow_symlinks || !fs.isSymlink f)))) ∧
    newFilesOf fs files = files.filter (fun f => !isDirEntry fs f) := by
  refine ⟨?_, ?_, rfl⟩
  · intro h
    subst h
    apply List.filter_congr
    intro f _
    simp [expandGate]
  · intro h
    have hcard : pastdirs.card ≠ 0 := by
      intro h0
      exact h (Finset.card_eq_zero.mp h0)
    apply List.filter_congr
    intro f _
    simp [expandGate, hcard]

theorem claim_C5_witness :
    (dirCandidates fsCycle optsA ["a"] ∅ =
      (["a"] : List String).filter (fun f => isDirEntry fsCycle f)) ∧
    (({"A"} : Finset String) ≠ ∅) ∧
    (dirCandidates fsCycle optsA ["a"] {"A"} =
      (["a"] : List String).filter (fun f => isDirEntry fsCycle f &&
        (optsA.recurse &&
          (optsA.follow_symlinks || !fsCycle.isSymlink f)))) :=
  ⟨(claim_C5 fsCycle optsA ["a"] ∅).1 rfl,
   by decide,
   (claim_C5 fsCycle optsA ["a"] {"A"}).2.1 (by decide)⟩

/-- The VTK error codes distinguished by the switch of lines 175-203. -/
inductive VtkErrorCode
  | noError
  | fileNotFoundError
  | cannotOpenFileError
  | unrecognizedFileTypeError
  | prematureEndOfFileError
  | fileFormatError
  | noFileNameError
  | outOfDiskSpaceError
  | otherError
deriving DecidableEq

/-- Embedding of `dicomtonifti_check_error` (lines 142-206): `none` means
the function returns and processing continues; `some msg` means the
diagnostic `msg` is printed to stderr and the process exits with
status 1. -/
def dicomtonifti_check_error (errorcode : VtkErrorCode) (filename : String) :
    Option String :=
  match errorcode with
  | VtkErrorCode.noError => none
  | VtkErrorCode.fileNotFoundError => some ("File not found: " ++ filename)
  | VtkErrorCode.cannotOpenFileError => some ("Cannot open file: " ++ filename)
  | VtkErrorCode.unrecognizedFileTypeError =>
      some ("Unrecognized file type: " ++ filename)
  | VtkErrorCode.prematureEndOfFileError =>
      some ("File is truncated: " ++ filename)
  | VtkErrorCode.fileFormatError => some ("Bad DICOM file: " ++ filename)
  | VtkErrorCode.noFileNameError =>
      some ("Output filename could not be used: " ++ filename)
  | VtkErrorCode.outOfDiskSpaceError =>
      some ("Out of disk space while writing file: " ++ filename)
  | VtkErrorCode.otherError => some "An unknown error occurred."

/-- The directory-creation step of the batch loop (lines 614-624):
failure prints a diagnostic naming the directory and exits with
status 1. -/
def dicomtonifti_make_directory (ok : Bool) (dirname : String) :
    Option String :=
  if ok then none else some ("Cannot create directory: " ++ dirname)

/-- C8: an unopenable directory during the walk is non-fatal (the loop
marks it visited and continues with the remaining entries), while every
collaborator error class and every directory-creation failure produces a
diagnostic that names the offending path and terminates the process. -/
theorem claim_C8 :
    (∀ fn, dicomtonifti_check_error VtkErrorCode.noError fn = none) ∧
    (∀ fn, ∃ pre, dicomtonifti_check_error VtkErrorCode.fileNotFoundError fn =
      some (pre ++ fn)) ∧
    (∀ fn, ∃ pre, dicomtonifti_check_error VtkErrorCode.cannotOpenFileError fn =
      some (pre ++ fn)) ∧
    (∀ fn, ∃ pre,
      dicomtonifti_check_error VtkErrorCode.unrecognizedFileTypeError fn =
        some (pre ++ fn)) ∧
    (∀ fn, ∃ pre,
      dicomtonifti_check_error VtkErrorCode.prematureEndOfFileError fn =
        some (pre ++ fn)) ∧
    (∀ fn, ∃ pre, dicomtonifti_check_error VtkErrorCode.fileFormatError fn =
      some (pre ++ fn)) ∧
    (∀ fn, ∃ pre, dicomtonifti_check_error VtkErrorCode.noFileNameError fn =
      some (pre ++ fn)) ∧
    (∀ fn, ∃ pre, dicomtonifti_check_error VtkErrorCode.outOfDiskSpaceError fn =
      some (pre ++ fn)) ∧
    (∀ dn, ∃ pre, dicomtonifti_make_directory false dn = some (pre ++ dn)) ∧
    (∀ dn, dicomtonifti_make_directory true dn = none) ∧
    (∀ (fs : FileSystemModel)
        (w : List String → Finset String → Option WalkState)
        (d : String) (rest : List String) (st : WalkState),
      fs.realPath d ∉ st.pastdirs → fs.listDir d = none →
      walkDirLoop fs w (d :: rest) st =
        walkDirLoop fs w rest
          { st with pastdirs := insert (fs.realPath d) st.pastdirs }) := by
  refine ⟨fun fn => rfl, fun fn => ⟨"File not found: ", rfl⟩,
    fun fn => ⟨"Cannot open file: ", rfl⟩,
    fun fn => ⟨"Unrecognized file type: ", rfl⟩,
    fun fn => ⟨"File is truncated: ", rfl⟩,
    fun fn => ⟨"Bad DICOM file: ", rfl⟩,
    fun fn => ⟨"Output filename could not be used: ", rfl⟩,
    fun fn => ⟨"Out of disk space while writing file: ", rfl⟩,
    fun dn => ⟨"Cannot create directory: ", rfl⟩,
    fun dn => rfl, ?_⟩
  intro fs w d rest st hmem hld
  conv_lhs => rw [walkDirLoop]
  rw [if_neg hmem, hld]

/-- A filesystem on which no directory can be opened. -/
def fsOpaque : FileSystemModel :=
  { isDirFile := fun _ => true, isSymlink := fun _ => false,
    realPath := fun s => s, listDir := fun _ => none,
    childPath := fun d e => d ++ "/" ++ e, dirRealPaths := ∅ }

theorem claim_C8_witness :
    dicomtonifti_check_error VtkErrorCode.noError "f.dcm" = none ∧
    (∃ pre, dicomtonifti_check_error VtkErrorCode.fileNotFoundError "f.dcm" =
      some (pre ++ "f.dcm")) ∧
    (∃ pre, dicomtonifti_make_directory false "out/dir" =
      some (pre ++ "out/dir")) ∧
    (fsOpaque.realPath "d" ∉
      (⟨[], [], ∅⟩ : WalkState).pastdirs) ∧
    fsOpaque.listDir "d" = none ∧
    walkDirLoop fsOpaque (fun _ _ => none) ["d"] ⟨[], [], ∅⟩ =
      walkDirLoop fsOpaque (fun _ _ => none) []
        { (⟨[], [], ∅⟩ : WalkState) with
          pastdirs := insert (fsOpaque.realPath "d") ∅ } :=
  ⟨claim_C8.1 "f.dcm", claim_C8.2.1 "f.dcm", claim_C8.2.2.2.2.2.2.2.2.1 "out/dir",
   by simp [fsOpaque], rfl,
   claim_C8.2.2.2.2.2.2.2.2.2.2 fsOpaque (fun _ _ => none) "d" [] ⟨[], [], ∅⟩
     (by simp [fsOpaque]) rfl⟩

theorem claim_C7_amended_witness :
    ((2 < (['x', '.', 'n', 'i', 'i'] : List Char).length) ∧
      ¬ endsInGzCI ['x', '.', 'n', 'i', 'i'] ∧
      dicomtonifti_single_outfile true ['x', '.', 'n', 'i', 'i'] =
        ['x', '.', 'n', 'i', 'i'] ++ ['.', 'g', 'z']) ∧
    (endsInGzCI ['a', '.', 'g', 'z'] ∧
      dicomtonifti_single_outfile true ['a', '.', 'g', 'z'] =
        ['a', '.', 'g', 'z']) := by
  have hng : ¬ endsInGzCI ['x', '.', 'n', 'i', 'i'] := by
    rw [endsInGzCI_iff _ (by decide)]
    decide
  have hgz : endsInGzCI ['a', '.', 'g', 'z'] :=
    ⟨['a'], 'g', 'z', rfl, by decide, by decide⟩
  exact ⟨⟨by decide, hng,
      (claim_C7_amended ['x', '.', 'n', 'i', 'i'] []).1 (by decide) hng⟩,
    hgz, (claim_C7_amended ['a', '.', 'g', 'z'] []).2.1 hgz⟩
